import Mathlib

/-!
Verification of the Split-Ease debt-settlement engine.

The definitions below are a shallow embedding of the settlement computation
in `src/components/Summary.tsx` (the `settlements` `useMemo` body) together
with the record types from `src/types.ts`.  JavaScript numbers are modelled
as exact rationals (`ℚ`); the engine's own `0.01` epsilon comparisons are
kept verbatim.  The JavaScript `Map` is modelled as an insertion-ordered
association list (`Map.set` keeps the position of an existing key, and
`Map.entries` iterates in insertion order).  `Array.prototype.sort` with
comparator `(a, b) => b.balance - a.balance` is the stable descending sort
by balance, modelled by a stable insertion sort.  The `while` loop is
modelled with explicit fuel, one unit per iteration; `none` marks fuel
exhaustion (the theorems below show that `debtors.length + creditors.length`
units always suffice, so the `.getD []` fallback in `settlements` is never
taken).
-/

unseal Rat.add Rat.sub Rat.mul Rat.inv Nat.gcd in
/-- `User` from `src/types.ts`: an opaque identifier and a display name. -/
structure User where
  id : String
  name : String
  deriving DecidableEq, Repr

/-- `Expense` from `src/types.ts`, restricted to the fields the settlement
computation reads (`amount`, `paidById`, `participantIds`); the display-only
fields (`id`, `description`, dates, receipt image) are never read by the
engine and are omitted. -/
structure Expense where
  amount : ℚ
  paidById : String
  participantIds : List String
  deriving DecidableEq, Repr

/-- `Settlement` from `src/types.ts`: `from` and `to` are user display
names, not identifiers. -/
structure Settlement where
  «from» : String
  «to» : String
  amount : ℚ
  deriving DecidableEq, Repr

/-- The transient `balances` map: `Map<string, number>` as an
insertion-ordered association list. -/
abbrev Balances := List (String × ℚ)

/-- `balances.get(uid)` followed by the `|| 0` default used at every read
site: a missing key reads as `0` (a stored `0` also reads as `0`, exactly as
the falsy `|| 0` does). -/
def getBal (bs : Balances) (uid : String) : ℚ :=
  match bs with
  | [] => 0
  | p :: rest => if p.1 = uid then p.2 else getBal rest uid

/-- `balances.set(uid, v)`: replace the value at an existing key in place,
or append a new entry at the end (JavaScript `Map` insertion order). -/
def setBal (bs : Balances) (uid : String) (v : ℚ) : Balances :=
  match bs with
  | [] => [(uid, v)]
  | p :: rest => if p.1 = uid then (uid, v) :: rest else p :: setBal rest uid v

/-- `users.forEach(user => balances.set(user.id, 0))`. -/
def initBalances (users : List User) : Balances :=
  users.foldl (fun acc u => setBal acc u.id 0) []

/-- One step of the `expenses.forEach` body: credit the payer with the full
amount, then debit every participant by `amount / participants.length`.
(When the participant list is empty the JavaScript `share` is `Infinity`
but is never applied; here `share` is the junk value `amount / 0 = 0`,
likewise never applied.) -/
def accrueExpense (bs : Balances) (e : Expense) : Balances :=
  let share := e.amount / (e.participantIds.length : ℚ)
  let bs1 := setBal bs e.paidById (getBal bs e.paidById + e.amount)
  e.participantIds.foldl (fun acc pid => setBal acc pid (getBal acc pid - share)) bs1

/-- Balance accrual over all expenses, starting from every user at `0`. -/
def accrueBalances (users : List User) (expenses : List Expense) : Balances :=
  expenses.foldl accrueExpense (initBalances users)

/-- An entry of the `debtors` / `creditors` working arrays:
`{ id, balance }` with `balance` the owed magnitude. -/
structure Party where
  id : String
  balance : ℚ
  deriving DecidableEq, Repr

/-- `Array.from(balances.entries()).filter(([, b]) => b < -0.01)
.map(([id, b]) => ({ id, balance: -b }))`. -/
def debtorsOf (bs : Balances) : List Party :=
  (bs.filter (fun p => p.2 < -(1/100))).map (fun p => ⟨p.1, -p.2⟩)

/-- `Array.from(balances.entries()).filter(([, b]) => b > 0.01)
.map(([id, b]) => ({ id, balance: b }))`. -/
def creditorsOf (bs : Balances) : List Party :=
  (bs.filter (fun p => (1/100) < p.2)).map (fun p => ⟨p.1, p.2⟩)

/-- Insert `x` in front of the first element with a strictly smaller
balance; elements with an equal balance stay in front of `x`, matching the
stability of `Array.prototype.sort`. -/
def insertDesc (x : Party) : List Party → List Party
  | [] => [x]
  | y :: ys => if y.balance ≤ x.balance then x :: y :: ys else y :: insertDesc x ys

/-- `arr.sort((a, b) => b.balance - a.balance)`: the stable descending sort
by balance (stable insertion sort). -/
def sortDesc : List Party → List Party
  | [] => []
  | x :: xs => insertDesc x (sortDesc xs)

/-- `users.find(u => u.id === uid)?.name || 'Unknown'`: the first matching
user's name, except that a missing user — or a user whose name is the falsy
empty string — reads as `"Unknown"`. -/
def nameOf (users : List User) (uid : String) : String :=
  match users with
  | [] => "Unknown"
  | u :: rest =>
    if u.id = uid then (if u.name = "" then "Unknown" else u.name)
    else nameOf rest uid

/-- The `while (i < debtors.length && j < creditors.length)` loop.  One unit
of fuel is one iteration.  Each iteration settles
`amt = min(debtor.balance, creditor.balance)`, emits a transfer only when
`amt > 0.01`, always subtracts `amt` from both current balances, and then
advances past the debtor and/or the creditor whose remaining balance has
dropped below `0.01` (the two independent `if` advances of the source).
`none` records that the fuel ran out with both arrays unexhausted. -/
def matchLoop (users : List User) : Nat → List Party → List Party → Option (List Settlement)
  | _, [], _ => some []
  | _, _ :: _, [] => some []
  | 0, _ :: _, _ :: _ => none
  | fuel + 1, d :: ds, c :: cs =>
    let amt := min d.balance c.balance
    let d2 := d.balance - amt
    let c2 := c.balance - amt
    let ds2 := if d2 < 1/100 then ds else { id := d.id, balance := d2 } :: ds
    let cs2 := if c2 < 1/100 then cs else { id := c.id, balance := c2 } :: cs
    let rest := matchLoop users fuel ds2 cs2
    if 1/100 < amt then
      Option.map (fun r => ⟨nameOf users d.id, nameOf users c.id, amt⟩ :: r) rest
    else
      rest

/-- The settlement computation of `src/components/Summary.tsx`: early return
`[]` for fewer than two users or no expenses; otherwise accrue balances,
partition and stably sort debtors and creditors descending by owed
magnitude, and run the greedy matching loop.  The loop is given
`debtors.length + creditors.length` fuel; the termination theorem below
shows this always suffices, so the `.getD []` default is never used. -/
def settlements (users : List User) (expenses : List Expense) : List Settlement :=
  if users.length < 2 ∨ expenses.length = 0 then []
  else
    let balances := accrueBalances users expenses
    let debtors := sortDesc (debtorsOf balances)
    let creditors := sortDesc (creditorsOf balances)
    (matchLoop users (debtors.length + creditors.length) debtors creditors).getD []

/-- Sum of the positive balances of the accrued map. -/
def sumPos (bs : Balances) : ℚ :=
  (bs.map (fun p => max p.2 0)).sum

/-- Sum of the magnitudes of the negative balances of the accrued map. -/
def sumNeg (bs : Balances) : ℚ :=
  (bs.map (fun p => max (-p.2) 0)).sum

/-- Sum of all balances of the map. -/
def sumBal (bs : Balances) : ℚ :=
  (bs.map Prod.snd).sum

/-- Modelled from the spec: §4.1 step 5 — "Round every emitted amount to 2
decimal places", here round-half-up (the spec allows half-up or half-even;
the counterexample below does not depend on the choice, as it exhibits an
amount that is not a multiple of `1/100` at all). -/
def round2 (q : ℚ) : ℚ :=
  ((⌊q * 100 + 1/2⌋ : ℤ) : ℚ) / 100

/-- Modelled from the spec: §7 — an input is invalid when some expense has
a negative amount, an empty participant set, or a payer or participant
identifier that does not occur in the users snapshot. -/
def specValidInput (users : List User) (expenses : List Expense) : Bool :=
  expenses.all (fun e =>
    (0 ≤ e.amount : Bool) && (!e.participantIds.isEmpty) &&
    users.any (fun u => u.id == e.paidById) &&
    e.participantIds.all (fun pid => users.any (fun u => u.id == pid)))

/-- Modelled from the spec: §4.1 step 3 — sort descending by owed
magnitude, "ties broken by a caller-stable secondary key (e.g., user
identifier)", here with the identifier ascending (insertion step). -/
def insertDescIdAsc (x : Party) : List Party → List Party
  | [] => [x]
  | y :: ys =>
    if y.balance < x.balance ∨ (y.balance = x.balance ∧ x.id ≤ y.id) then x :: y :: ys
    else y :: insertDescIdAsc x ys

/-- Modelled from the spec: §4.1 step 3 with the identifier-ascending
tie-break (full sort). -/
def sortDescIdAsc : List Party → List Party
  | [] => []
  | x :: xs => insertDescIdAsc x (sortDescIdAsc xs)

/-- Modelled from the spec: §4.1 step 3 — as `insertDescIdAsc` but with the
identifier descending, the other possible reading of the tie-break. -/
def insertDescIdDesc (x : Party) : List Party → List Party
  | [] => [x]
  | y :: ys =>
    if y.balance < x.balance ∨ (y.balance = x.balance ∧ y.id ≤ x.id) then x :: y :: ys
    else y :: insertDescIdDesc x ys

/-- Modelled from the spec: §4.1 step 3 with the identifier-descending
tie-break (full sort). -/
def sortDescIdDesc : List Party → List Party
  | [] => []
  | x :: xs => insertDescIdDesc x (sortDescIdDesc xs)

/-! ### Basic lemmas about the balance map -/

theorem getBal_setBal_self (bs : Balances) (u : String) (v : ℚ) :
    getBal (setBal bs u v) u = v := by
  induction bs with
  | nil => simp [setBal, getBal]
  | cons p rest ih =>
    by_cases h : p.1 = u
    · simp [setBal, getBal, h]
    · simp [setBal, getBal, h, ih]

theorem getBal_setBal_ne (bs : Balances) (u k : String) (v : ℚ) (h : k ≠ u) :
    getBal (setBal bs u v) k = getBal bs k := by
  have h' : ¬ (u = k) := fun hh => h hh.symm
  induction bs with
  | nil => simp [setBal, getBal, h']
  | cons p rest ih =>
    by_cases hp : p.1 = u
    · subst hp
      by_cases hk : p.1 = k
      · exact absurd hk h'
      · simp [setBal, getBal, hk]
    · by_cases hk : p.1 = k
      · simp [setBal, getBal, hp, hk, h]
      · simp [setBal, getBal, hp, hk, ih]

theorem sumBal_setBal (bs : Balances) (u : String) (v : ℚ) :
    sumBal (setBal bs u v) = sumBal bs - getBal bs u + v := by
  induction bs with
  | nil => simp [setBal, getBal, sumBal]
  | cons p rest ih =>
    by_cases h : p.1 = u
    · simp [setBal, getBal, sumBal, h]
      ring
    · simp only [setBal, getBal, sumBal, h, if_false, List.map_cons, List.sum_cons] at *
      rw [ih]
      ring

theorem getBal_initBalances (users : List User) (k : String) :
    getBal (initBalances users) k = 0 := by
  have main : ∀ (us : List User) (acc : Balances), (∀ j, getBal acc j = 0) →
      ∀ j, getBal (us.foldl (fun a u => setBal a u.id 0) acc) j = 0 := by
    intro us
    induction us with
    | nil => intro acc h j; simpa using h j
    | cons u rest ih =>
      intro acc h j
      refine ih _ ?_ j
      intro j'
      by_cases hj : j' = u.id
      · subst hj; exact getBal_setBal_self acc u.id 0
      · rw [getBal_setBal_ne acc u.id j' 0 hj]; exact h j'
  exact main users [] (fun j => rfl) k

theorem sumBal_initBalances (users : List User) :
    sumBal (initBalances users) = 0 := by
  have main : ∀ (us : List User) (acc : Balances), (∀ p ∈ acc, p.2 = 0) →
      (∀ p ∈ us.foldl (fun a u => setBal a u.id 0) acc, p.2 = 0) := by
    intro us
    induction us with
    | nil => intro acc h; simpa using h
    | cons u rest ih =>
      intro acc h
      refine ih _ ?_
      intro p hp
      have : ∀ (l : Balances), (∀ q ∈ l, q.2 = 0) → ∀ q ∈ setBal l u.id 0, q.2 = 0 := by
        intro l
        induction l with
        | nil => intro _ q hq; simp [setBal] at hq; simp [hq]
        | cons r rl ihl =>
          intro hl q hq
          by_cases hr : r.1 = u.id
          · simp [setBal, hr] at hq
            rcases hq with hq | hq
            · simp [hq]
            · exact hl q (List.mem_cons_of_mem _ hq)
          · simp only [setBal, hr, if_false, List.mem_cons] at hq
            rcases hq with hq | hq
            · exact hl q (by simp [hq])
            · exact ihl (fun q hq => hl q (List.mem_cons_of_mem _ hq)) q hq
      exact this acc h p hp
  have hz : ∀ p ∈ initBalances users, p.2 = 0 := main users [] (by simp)
  unfold sumBal
  rw [List.sum_eq_zero]
  intro x hx
  rcases List.mem_map.mp hx with ⟨p, hp, rfl⟩
  exact hz p hp

theorem sumBal_debitFold (l : List String) (acc : Balances) (sh : ℚ) :
    sumBal (l.foldl (fun a pid => setBal a pid (getBal a pid - sh)) acc)
      = sumBal acc - l.length * sh := by
  induction l generalizing acc with
  | nil => simp
  | cons pid rest ih =>
    rw [List.foldl_cons, ih, sumBal_setBal]
    simp only [List.length_cons]
    push_cast
    ring

theorem sumBal_accrueExpense (bs : Balances) (e : Expense)
    (h : e.participantIds ≠ []) : sumBal (accrueExpense bs e) = sumBal bs := by
  unfold accrueExpense
  rw [sumBal_debitFold, sumBal_setBal]
  have hk : (e.participantIds.length : ℚ) ≠ 0 := by
    have hpos : 0 < e.participantIds.length := List.length_pos.mpr h
    exact_mod_cast hpos.ne'
  field_simp
  ring

theorem sumBal_accrueBalances (users : List User) (expenses : List Expense)
    (h : ∀ e ∈ expenses, e.participantIds ≠ []) :
    sumBal (accrueBalances users expenses) = 0 := by
  unfold accrueBalances
  have main : ∀ (es : List Expense) (acc : Balances), (∀ e ∈ es, e.participantIds ≠ []) →
      sumBal (es.foldl accrueExpense acc) = sumBal acc := by
    intro es
    induction es with
    | nil => intro acc _; rfl
    | cons e rest ih =>
      intro acc hh
      rw [List.foldl_cons, ih _ (fun e' he' => hh e' (List.mem_cons_of_mem _ he')),
        sumBal_accrueExpense acc e (hh e (List.mem_cons_self _ _))]
  rw [main expenses _ h, sumBal_initBalances]

theorem sumPos_sub_sumNeg (bs : Balances) : sumPos bs - sumNeg bs = sumBal bs := by
  induction bs with
  | nil => simp [sumPos, sumNeg, sumBal]
  | cons p rest ih =>
    simp only [sumPos, sumNeg, sumBal, List.map_cons, List.sum_cons] at *
    have hp : max p.2 0 - max (-p.2) 0 = p.2 := by
      rcases le_total p.2 0 with h | h
      · rw [max_eq_right h, max_eq_left (by linarith : (0:ℚ) ≤ -p.2)]; ring
      · rw [max_eq_left h, max_eq_right (by linarith : -p.2 ≤ (0:ℚ))]; ring
    linarith

/-! ### Lemmas about the stable descending sort -/

theorem length_insertDesc (x : Party) (l : List Party) :
    (insertDesc x l).length = l.length + 1 := by
  induction l with
  | nil => simp [insertDesc]
  | cons y ys ih => by_cases h : y.balance ≤ x.balance <;> simp [insertDesc, h, ih]

theorem length_sortDesc (l : List Party) : (sortDesc l).length = l.length := by
  induction l with
  | nil => rfl
  | cons x xs ih => simp [sortDesc, length_insertDesc, ih]

theorem mem_insertDesc (x a : Party) (l : List Party) :
    a ∈ insertDesc x l ↔ a = x ∨ a ∈ l := by
  induction l with
  | nil => simp [insertDesc]
  | cons y ys ih =>
    by_cases h : y.balance ≤ x.balance
    · simp [insertDesc, h]
    · simp only [insertDesc, if_neg h, List.mem_cons, ih]
      tauto

theorem mem_sortDesc (a : Party) (l : List Party) : a ∈ sortDesc l ↔ a ∈ l := by
  induction l with
  | nil => simp [sortDesc]
  | cons x xs ih => simp [sortDesc, mem_insertDesc, ih]

theorem pairwise_insertDesc (x : Party) (l : List Party)
    (h : l.Pairwise (fun a b => b.balance ≤ a.balance)) :
    (insertDesc x l).Pairwise (fun a b => b.balance ≤ a.balance) := by
  induction l with
  | nil => simp [insertDesc]
  | cons y ys ih =>
    rcases List.pairwise_cons.mp h with ⟨hy, hys⟩
    by_cases hb : y.balance ≤ x.balance
    · simp only [insertDesc, if_pos hb]
      refine List.pairwise_cons.mpr ⟨?_, h⟩
      intro b hb'
      rcases List.mem_cons.mp hb' with rfl | hb''
      · exact hb
      · exact le_trans (hy b hb'') hb
    · simp only [insertDesc, if_neg hb]
      refine List.pairwise_cons.mpr ⟨?_, ih hys⟩
      intro b hb'
      rcases (mem_insertDesc x b ys).mp hb' with rfl | hb''
      · exact le_of_not_le hb
      · exact hy b hb''

theorem pairwise_sortDesc (l : List Party) :
    (sortDesc l).Pairwise (fun a b => b.balance ≤ a.balance) := by
  induction l with
  | nil => simp [sortDesc]
  | cons x xs ih => exact pairwise_insertDesc x (sortDesc xs) ih

/-! ### Lemmas about the greedy matching loop -/

theorem residual_min_lt (a b : ℚ) :
    a - min a b < 1/100 ∨ b - min a b < 1/100 := by
  rcases min_cases a b with ⟨h, _⟩ | ⟨h, _⟩
  · left; rw [h]; norm_num
  · right; rw [h]; norm_num

theorem matchLoop_isSome (users : List User) :
    ∀ (fuel : Nat) (ds cs : List Party), ds.length + cs.length ≤ fuel →
      (matchLoop users fuel ds cs).isSome = true := by
  intro fuel
  induction fuel with
  | zero =>
    intro ds cs h
    match ds, cs with
    | [], _ => simp [matchLoop]
    | _ :: _, [] => simp [matchLoop]
    | _ :: _, _ :: _ => simp at h
  | succ fuel ih =>
    intro ds cs h
    match ds, cs with
    | [], _ => simp [matchLoop]
    | _ :: _, [] => simp [matchLoop]
    | d :: ds, c :: cs =>
      simp only [List.length_cons] at h
      simp only [matchLoop]
      by_cases hd : d.balance - min d.balance c.balance < 1/100 <;>
        by_cases hc : c.balance - min d.balance c.balance < 1/100
      · rw [if_pos hd, if_pos hc]
        have hrec := ih ds cs (by omega)
        obtain ⟨r, hr⟩ := Option.isSome_iff_exists.mp hrec
        rw [hr]
        split_ifs <;> simp
      · rw [if_pos hd, if_neg hc]
        have hrec := ih ds
          ({ id := c.id, balance := c.balance - min d.balance c.balance } :: cs)
          (by simp; omega)
        obtain ⟨r, hr⟩ := Option.isSome_iff_exists.mp hrec
        rw [hr]
        split_ifs <;> simp
      · rw [if_neg hd, if_pos hc]
        have hrec := ih
          ({ id := d.id, balance := d.balance - min d.balance c.balance } :: ds) cs
          (by simp; omega)
        obtain ⟨r, hr⟩ := Option.isSome_iff_exists.mp hrec
        rw [hr]
        split_ifs <;> simp
      · rcases residual_min_lt d.balance c.balance with h' | h'
        · exact absurd h' hd
        · exact absurd h' hc

theorem matchLoop_length_bound (users : List User) :
    ∀ (fuel : Nat) (ds cs : List Party) (r : List Settlement),
      matchLoop users fuel ds cs = some r →
      r = [] ∨ r.length + 1 ≤ ds.length + cs.length := by
  intro fuel
  induction fuel with
  | zero =>
    intro ds cs r h
    match ds, cs with
    | [], _ => simp [matchLoop] at h; exact Or.inl h
    | _ :: _, [] => simp [matchLoop] at h; exact Or.inl h
    | _ :: _, _ :: _ => simp [matchLoop] at h
  | succ fuel ih =>
    intro ds cs r h
    match ds, cs with
    | [], _ => simp [matchLoop] at h; exact Or.inl h
    | _ :: _, [] => simp [matchLoop] at h; exact Or.inl h
    | d :: ds, c :: cs =>
      simp only [matchLoop] at h
      by_cases hd : d.balance - min d.balance c.balance < 1/100 <;>
        by_cases hc : c.balance - min d.balance c.balance < 1/100
      · rw [if_pos hd, if_pos hc] at h
        split_ifs at h with hamt
        · rcases Option.map_eq_some'.mp h with ⟨r', hr', rfl⟩
          rcases ih ds cs r' hr' with rfl | hb
          · right; simp only [List.length_cons, List.length_nil]; omega
          · right; simp only [List.length_cons]; omega
        · rcases ih ds cs r h with rfl | hb
          · exact Or.inl rfl
          · right; simp only [List.length_cons]; omega
      · rw [if_pos hd, if_neg hc] at h
        split_ifs at h with hamt
        · rcases Option.map_eq_some'.mp h with ⟨r', hr', rfl⟩
          rcases ih _ _ r' hr' with rfl | hb
          · right; simp only [List.length_cons, List.length_nil]; omega
          · right; simp only [List.length_cons] at hb ⊢; omega
        · rcases ih _ _ r h with rfl | hb
          · exact Or.inl rfl
          · right; simp only [List.length_cons] at hb ⊢; omega
      · rw [if_neg hd, if_pos hc] at h
        split_ifs at h with hamt
        · rcases Option.map_eq_some'.mp h with ⟨r', hr', rfl⟩
          rcases ih _ _ r' hr' with rfl | hb
          · right; simp only [List.length_cons, List.length_nil]; omega
          · right; simp only [List.length_cons] at hb ⊢; omega
        · rcases ih _ _ r h with rfl | hb
          · exact Or.inl rfl
          · right; simp only [List.length_cons] at hb ⊢; omega
      · rcases residual_min_lt d.balance c.balance with h' | h'
        · exact absurd h' hd
        · exact absurd h' hc

theorem matchLoop_amount (users : List User) :
    ∀ (fuel : Nat) (ds cs : List Party) (r : List Settlement),
      matchLoop users fuel ds cs = some r →
      ∀ t ∈ r, 1/100 < t.amount := by
  intro fuel
  induction fuel with
  | zero =>
    intro ds cs r h t ht
    match ds, cs with
    | [], _ => simp [matchLoop] at h; subst h; simp at ht
    | _ :: _, [] => simp [matchLoop] at h; subst h; simp at ht
    | _ :: _, _ :: _ => simp [matchLoop] at h
  | succ fuel ih =>
    intro ds cs r h t ht
    match ds, cs with
    | [], _ => simp [matchLoop] at h; subst h; simp at ht
    | _ :: _, [] => simp [matchLoop] at h; subst h; simp at ht
    | d :: ds, c :: cs =>
      simp only [matchLoop] at h
      by_cases hamt : 1/100 < min d.balance c.balance
      · rw [if_pos hamt] at h
        rcases Option.map_eq_some'.mp h with ⟨r', hr', rfl⟩
        rcases List.mem_cons.mp ht with rfl | ht'
        · exact hamt
        · exact ih _ _ r' hr' t ht'
      · rw [if_neg hamt] at h
        exact ih _ _ r h t ht

theorem matchLoop_names (users : List User) :
    ∀ (fuel : Nat) (ds cs : List Party) (r : List Settlement),
      matchLoop users fuel ds cs = some r →
      ∀ t ∈ r, t.«from» ∈ ds.map (fun p => nameOf users p.id)
        ∧ t.«to» ∈ cs.map (fun p => nameOf users p.id) := by
  intro fuel
  induction fuel with
  | zero =>
    intro ds cs r h t ht
    match ds, cs with
    | [], _ => simp [matchLoop] at h; subst h; simp at ht
    | _ :: _, [] => simp [matchLoop] at h; subst h; simp at ht
    | _ :: _, _ :: _ => simp [matchLoop] at h
  | succ fuel ih =>
    intro ds cs r h t ht
    match ds, cs with
    | [], _ => simp [matchLoop] at h; subst h; simp at ht
    | _ :: _, [] => simp [matchLoop] at h; subst h; simp at ht
    | d :: ds, c :: cs =>
      simp only [matchLoop] at h
      by_cases hd : d.balance - min d.balance c.balance < 1/100 <;>
        by_cases hc : c.balance - min d.balance c.balance < 1/100
      · rw [if_pos hd, if_pos hc] at h
        split_ifs at h with hamt
        · rcases Option.map_eq_some'.mp h with ⟨r', hr', rfl⟩
          rcases List.mem_cons.mp ht with rfl | ht'
          · exact ⟨List.mem_map_of_mem _ (List.mem_cons_self d ds),
              List.mem_map_of_mem _ (List.mem_cons_self c cs)⟩
          · have hIH := ih ds cs r' hr' t ht'
            exact ⟨List.mem_cons_of_mem _ hIH.1, List.mem_cons_of_mem _ hIH.2⟩
        · have hIH := ih ds cs r h t ht
          exact ⟨List.mem_cons_of_mem _ hIH.1, List.mem_cons_of_mem _ hIH.2⟩
      · rw [if_pos hd, if_neg hc] at h
        split_ifs at h with hamt
        · rcases Option.map_eq_some'.mp h with ⟨r', hr', rfl⟩
          rcases List.mem_cons.mp ht with rfl | ht'
          · exact ⟨List.mem_map_of_mem _ (List.mem_cons_self d ds),
              List.mem_map_of_mem _ (List.mem_cons_self c cs)⟩
          · have hIH := ih _ _ r' hr' t ht'
            exact ⟨List.mem_cons_of_mem _ hIH.1, hIH.2⟩
        · have hIH := ih _ _ r h t ht
          exact ⟨List.mem_cons_of_mem _ hIH.1, hIH.2⟩
      · rw [if_neg hd, if_pos hc] at h
        split_ifs at h with hamt
        · rcases Option.map_eq_some'.mp h with ⟨r', hr', rfl⟩
          rcases List.mem_cons.mp ht with rfl | ht'
          · exact ⟨List.mem_map_of_mem _ (List.mem_cons_self d ds),
              List.mem_map_of_mem _ (List.mem_cons_self c cs)⟩
          · have hIH := ih _ _ r' hr' t ht'
            exact ⟨hIH.1, List.mem_cons_of_mem _ hIH.2⟩
        · have hIH := ih _ _ r h t ht
          exact ⟨hIH.1, List.mem_cons_of_mem _ hIH.2⟩
      · rcases residual_min_lt d.balance c.balance with h' | h'
        · exact absurd h' hd
        · exact absurd h' hc

/-! ### Keys, names, and pointwise accrual lemmas -/

theorem getBal_setBal (bs : Balances) (u k : String) (v : ℚ) :
    getBal (setBal bs u v) k = if u = k then v else getBal bs k := by
  by_cases h : u = k
  · subst h; simp [getBal_setBal_self]
  · rw [if_neg h, getBal_setBal_ne _ _ _ _ (fun hh => h hh.symm)]

theorem mem_keys_setBal (bs : Balances) (u k : String) (v : ℚ) :
    k ∈ (setBal bs u v).map Prod.fst ↔ k = u ∨ k ∈ bs.map Prod.fst := by
  induction bs with
  | nil => simp [setBal]
  | cons p rest ih =>
    by_cases hp : p.1 = u
    · subst hp
      simp [setBal]
    · simp [setBal, hp, ih]
      tauto

theorem keys_nodup_setBal (bs : Balances) (u : String) (v : ℚ)
    (h : (bs.map Prod.fst).Nodup) : ((setBal bs u v).map Prod.fst).Nodup := by
  induction bs with
  | nil => simp [setBal]
  | cons p rest ih =>
    simp only [List.map_cons] at h
    rcases List.nodup_cons.mp h with ⟨hp1, hp2⟩
    by_cases hp : p.1 = u
    · subst hp
      simp only [setBal, if_true, List.map_cons, List.nodup_cons]
      exact ⟨hp1, hp2⟩
    · simp only [setBal, hp, if_false, List.map_cons, List.nodup_cons]
      refine ⟨?_, ih hp2⟩
      rw [mem_keys_setBal]
      push_neg
      exact ⟨hp, hp1⟩

theorem value_eq_of_mem_nodup {bs : Balances} {k : String} {v1 v2 : ℚ}
    (h : (bs.map Prod.fst).Nodup) (h1 : (k, v1) ∈ bs) (h2 : (k, v2) ∈ bs) :
    v1 = v2 := by
  induction bs with
  | nil => simp at h1
  | cons p rest ih =>
    simp only [List.map_cons] at h
    rcases List.nodup_cons.mp h with ⟨hp1, hp2⟩
    rcases List.mem_cons.mp h1 with rfl | h1'
    · rcases List.mem_cons.mp h2 with heq | h2'
      · exact ((Prod.ext_iff.mp heq).2).symm
      · exact absurd (List.mem_map_of_mem Prod.fst h2') hp1
    · rcases List.mem_cons.mp h2 with rfl | h2'
      · exact absurd (List.mem_map_of_mem Prod.fst h1') hp1
      · exact ih hp2 h1' h2'

theorem keys_nodup_foldl_setBal (f : Balances → String → ℚ) :
    ∀ (l : List String) (acc : Balances), (acc.map Prod.fst).Nodup →
      ((l.foldl (fun a pid => setBal a pid (f a pid)) acc).map Prod.fst).Nodup := by
  intro l
  induction l with
  | nil => intro acc h; simpa using h
  | cons pid rest ih =>
    intro acc h
    exact ih _ (keys_nodup_setBal _ _ _ h)

theorem keys_nodup_accrueExpense (bs : Balances) (e : Expense)
    (h : (bs.map Prod.fst).Nodup) :
    ((accrueExpense bs e).map Prod.fst).Nodup := by
  unfold accrueExpense
  exact keys_nodup_foldl_setBal _ _ _ (keys_nodup_setBal _ _ _ h)

theorem keys_nodup_initBalances (users : List User) :
    ((initBalances users).map Prod.fst).Nodup := by
  unfold initBalances
  have main : ∀ (us : List User) (acc : Balances), (acc.map Prod.fst).Nodup →
      ((us.foldl (fun a u => setBal a u.id 0) acc).map Prod.fst).Nodup := by
    intro us
    induction us with
    | nil => intro acc h; simpa using h
    | cons u rest ih => intro acc h; exact ih _ (keys_nodup_setBal _ _ _ h)
  exact main users [] (by simp)

theorem keys_nodup_accrueBalances (users : List User) (expenses : List Expense) :
    ((accrueBalances users expenses).map Prod.fst).Nodup := by
  unfold accrueBalances
  have main : ∀ (es : List Expense) (acc : Balances), (acc.map Prod.fst).Nodup →
      ((es.foldl accrueExpense acc).map Prod.fst).Nodup := by
    intro es
    induction es with
    | nil => intro acc h; simpa using h
    | cons e rest ih => intro acc h; exact ih _ (keys_nodup_accrueExpense _ _ h)
  exact main expenses _ (keys_nodup_initBalances users)

theorem nameOf_not_mem (users : List User) (uid : String)
    (h : uid ∉ users.map User.id) : nameOf users uid = "Unknown" := by
  induction users with
  | nil => rfl
  | cons u rest ih =>
    simp only [List.map_cons, List.mem_cons] at h
    push_neg at h
    have hcond : ¬ (u.id = uid) := fun hh => h.1 hh.symm
    simp only [nameOf, if_neg hcond]
    exact ih h.2

theorem nameOf_mem (users : List User) (uid : String)
    (h : uid ∈ users.map User.id) :
    ∃ u ∈ users, u.id = uid ∧
      nameOf users uid = (if u.name = "" then "Unknown" else u.name) := by
  induction users with
  | nil => simp at h
  | cons u rest ih =>
    by_cases hu : u.id = uid
    · exact ⟨u, List.mem_cons_self u rest, hu, by simp [nameOf, hu]⟩
    · simp only [List.map_cons, List.mem_cons] at h
      rcases h with h | h
      · exact absurd h.symm hu
      · rcases ih h with ⟨w, hw, hwid, hwname⟩
        exact ⟨w, List.mem_cons_of_mem _ hw, hwid, by simp [nameOf, hu, hwname]⟩

theorem mem_keys_foldl_setBal (f : Balances → String → ℚ) :
    ∀ (l : List String) (acc : Balances) (k : String),
      k ∈ ((l.foldl (fun a pid => setBal a pid (f a pid)) acc).map Prod.fst) →
      k ∈ l ∨ k ∈ acc.map Prod.fst := by
  intro l
  induction l with
  | nil => intro acc k h; right; simpa using h
  | cons pid rest ih =>
    intro acc k h
    rcases ih _ k h with h' | h'
    · exact Or.inl (List.mem_cons_of_mem _ h')
    · rcases (mem_keys_setBal _ _ _ _).mp h' with rfl | h''
      · exact Or.inl (List.mem_cons_self _ _)
      · exact Or.inr h''

theorem mem_keys_accrueExpense (bs : Balances) (e : Expense) (k : String)
    (h : k ∈ (accrueExpense bs e).map Prod.fst) :
    k = e.paidById ∨ k ∈ e.participantIds ∨ k ∈ bs.map Prod.fst := by
  unfold accrueExpense at h
  rcases mem_keys_foldl_setBal _ _ _ _ h with h' | h'
  · exact Or.inr (Or.inl h')
  · rcases (mem_keys_setBal _ _ _ _).mp h' with rfl | h''
    · exact Or.inl rfl
    · exact Or.inr (Or.inr h'')

theorem mem_keys_initBalances (users : List User) (k : String)
    (h : k ∈ (initBalances users).map Prod.fst) : k ∈ users.map User.id := by
  unfold initBalances at h
  have main : ∀ (us : List User) (acc : Balances) (k : String),
      k ∈ ((us.foldl (fun a u => setBal a u.id 0) acc).map Prod.fst) →
      k ∈ us.map User.id ∨ k ∈ acc.map Prod.fst := by
    intro us
    induction us with
    | nil => intro acc k h; right; simpa using h
    | cons u rest ih =>
      intro acc k h
      rcases ih _ k h with h' | h'
      · exact Or.inl (List.mem_cons_of_mem _ h')
      · rcases (mem_keys_setBal _ _ _ _).mp h' with rfl | h''
        · exact Or.inl (by simp)
        · exact Or.inr h''
  rcases main users [] k h with h' | h'
  · exact h'
  · simp at h'

theorem mem_keys_accrueBalances (users : List User) (expenses : List Expense)
    (k : String) (h : k ∈ (accrueBalances users expenses).map Prod.fst) :
    k ∈ users.map User.id ∨
      ∃ e ∈ expenses, k = e.paidById ∨ k ∈ e.participantIds := by
  unfold accrueBalances at h
  have main : ∀ (es : List Expense) (acc : Balances) (k : String),
      k ∈ ((es.foldl accrueExpense acc).map Prod.fst) →
      k ∈ acc.map Prod.fst ∨ ∃ e ∈ es, k = e.paidById ∨ k ∈ e.participantIds := by
    intro es
    induction es with
    | nil => intro acc k h; left; simpa using h
    | cons e rest ih =>
      intro acc k h
      rcases ih _ k h with h' | ⟨e', he', h'⟩
      · rcases mem_keys_accrueExpense _ _ _ h' with h'' | h'' | h''
        · exact Or.inr ⟨e, List.mem_cons_self _ _, Or.inl h''⟩
        · exact Or.inr ⟨e, List.mem_cons_self _ _, Or.inr h''⟩
        · exact Or.inl h''
      · exact Or.inr ⟨e', List.mem_cons_of_mem _ he', h'⟩
  rcases main expenses _ k h with h' | h'
  · exact Or.inl (mem_keys_initBalances _ _ h')
  · exact Or.inr h'

theorem getBal_foldl_congr (sh : ℚ) :
    ∀ (l : List String) (a1 a2 : Balances), (∀ k, getBal a1 k = getBal a2 k) →
      ∀ k, getBal (l.foldl (fun a pid => setBal a pid (getBal a pid - sh)) a1) k
        = getBal (l.foldl (fun a pid => setBal a pid (getBal a pid - sh)) a2) k := by
  intro l
  induction l with
  | nil => intro a1 a2 h k; simpa using h k
  | cons pid rest ih =>
    intro a1 a2 h k
    refine ih _ _ ?_ k
    intro j
    rw [getBal_setBal, getBal_setBal, h pid]
    by_cases hj : pid = j <;> simp [hj, h j]

theorem getBal_accrueExpense_congr (e : Expense) (b1 b2 : Balances)
    (h : ∀ k, getBal b1 k = getBal b2 k) :
    ∀ k, getBal (accrueExpense b1 e) k = getBal (accrueExpense b2 e) k := by
  intro k
  unfold accrueExpense
  refine getBal_foldl_congr _ _ _ _ ?_ k
  intro j
  rw [getBal_setBal, getBal_setBal, h e.paidById]
  by_cases hj : e.paidById = j <;> simp [hj, h j]

theorem getBal_accrueBalances_users_irrelevant (expenses : List Expense)
    (users1 users2 : List User) (k : String) :
    getBal (accrueBalances users1 expenses) k
      = getBal (accrueBalances users2 expenses) k := by
  unfold accrueBalances
  have main : ∀ (es : List Expense) (b1 b2 : Balances),
      (∀ j, getBal b1 j = getBal b2 j) →
      ∀ j, getBal (es.foldl accrueExpense b1) j = getBal (es.foldl accrueExpense b2) j := by
    intro es
    induction es with
    | nil => intro b1 b2 h j; exact h j
    | cons e rest ih =>
      intro b1 b2 h j
      exact ih _ _ (getBal_accrueExpense_congr e b1 b2 h) j
  exact main expenses _ _ (fun j => by rw [getBal_initBalances, getBal_initBalances]) k

theorem mem_debtorsOf {bs : Balances} {p : Party} (h : p ∈ debtorsOf bs) :
    (p.id, -p.balance) ∈ bs ∧ -p.balance < -(1/100) := by
  rcases List.mem_map.mp h with ⟨q, hq, rfl⟩
  rcases List.mem_filter.mp hq with ⟨hq1, hq2⟩
  simp only [decide_eq_true_eq] at hq2
  constructor
  · simpa using hq1
  · simpa using hq2

theorem mem_creditorsOf {bs : Balances} {p : Party} (h : p ∈ creditorsOf bs) :
    (p.id, p.balance) ∈ bs ∧ (1/100) < p.balance := by
  rcases List.mem_map.mp h with ⟨q, hq, rfl⟩
  rcases List.mem_filter.mp hq with ⟨hq1, hq2⟩
  simp only [decide_eq_true_eq] at hq2
  constructor
  · simpa using hq1
  · simpa using hq2

theorem debtorsOf_eq_nil {bs : Balances} (h : ∀ p ∈ bs, |p.2| ≤ 1/100) :
    debtorsOf bs = [] := by
  unfold debtorsOf
  rw [List.filter_eq_nil_iff.mpr, List.map_nil]
  intro p hp
  have := abs_le.mp (h p hp)
  simp only [decide_eq_true_eq]
  intro hlt
  linarith [this.1]

theorem creditorsOf_eq_nil {bs : Balances} (h : ∀ p ∈ bs, |p.2| ≤ 1/100) :
    creditorsOf bs = [] := by
  unfold creditorsOf
  rw [List.filter_eq_nil_iff.mpr, List.map_nil]
  intro p hp
  have := abs_le.mp (h p hp)
  simp only [decide_eq_true_eq]
  intro hlt
  linarith [this.2]

/-! ### Bridge from `settlements` to the loop lemmas -/

theorem settlements_spec_r (users : List User) (expenses : List Expense) :
    ∃ r : List Settlement,
      matchLoop users
        ((sortDesc (debtorsOf (accrueBalances users expenses))).length +
          (sortDesc (creditorsOf (accrueBalances users expenses))).length)
        (sortDesc (debtorsOf (accrueBalances users expenses)))
        (sortDesc (creditorsOf (accrueBalances users expenses))) = some r ∧
      (¬(users.length < 2 ∨ expenses.length = 0) → settlements users expenses = r) := by
  obtain ⟨r, hr⟩ := Option.isSome_iff_exists.mp (matchLoop_isSome users _ _ _ (le_refl _))
  refine ⟨r, hr, ?_⟩
  intro h
  unfold settlements
  rw [if_neg h]
  simp only [hr, Option.getD_some]

/-! ### Claim theorems -/

unseal Rat.add Rat.sub Rat.mul Rat.inv Nat.gcd in
/-- C1 (code evaluation at the failing input): on the valid input with users
A, B, C where A pays 0.01 for C and B pays 0.01 for C, user "c" accrues a
net balance of −0.02 — beyond epsilon — yet the engine emits no transfer at
all, because both creditors sit exactly at the 0.01 filter threshold and are
excluded.  Applying the (empty) returned transfer list therefore leaves
"c" at −0.02, violating the settlement-completeness claim (the UI then even
shows "All Settled Up!" for this state). -/
theorem c1_completeness_failure_eval :
    settlements [⟨"a","A"⟩, ⟨"b","B"⟩, ⟨"c","C"⟩]
        [⟨1/100, "a", ["c"]⟩, ⟨1/100, "b", ["c"]⟩] = [] ∧
    getBal (accrueBalances [⟨"a","A"⟩, ⟨"b","B"⟩, ⟨"c","C"⟩]
        [⟨1/100, "a", ["c"]⟩, ⟨1/100, "b", ["c"]⟩]) "c" = -(1/50) ∧
    ¬(|getBal (accrueBalances [⟨"a","A"⟩, ⟨"b","B"⟩, ⟨"c","C"⟩]
        [⟨1/100, "a", ["c"]⟩, ⟨1/100, "b", ["c"]⟩]) "c"| ≤ 1/100) := by
  decide

unseal Rat.add Rat.sub Rat.mul Rat.inv Nat.gcd in
/-- C2 (counterexample): with two users of balance zero and an expense whose
payer "x" and participant "y" are unknown identifiers, the engine emits one
transfer while the number of users with nonzero balance is zero, so the
claimed bound of n minus 1 fails (`1 ≤ 0 − 1` is false, with natural or
integer subtraction alike). -/
theorem c2_counterexample :
    (settlements [⟨"a","A"⟩, ⟨"b","B"⟩] [⟨10, "x", ["y"]⟩]).length = 1 ∧
    ([⟨"a","A"⟩, ⟨"b","B"⟩].filter (fun u : User =>
        1/100 < |getBal (accrueBalances [⟨"a","A"⟩, ⟨"b","B"⟩]
          [⟨10, "x", ["y"]⟩]) u.id|)).length = 0 ∧
    ¬((settlements [⟨"a","A"⟩, ⟨"b","B"⟩] [⟨10, "x", ["y"]⟩]).length ≤
      ([⟨"a","A"⟩, ⟨"b","B"⟩].filter (fun u : User =>
        1/100 < |getBal (accrueBalances [⟨"a","A"⟩, ⟨"b","B"⟩]
          [⟨10, "x", ["y"]⟩]) u.id|)).length - 1) := by
  decide

/-- C2 (amended): the number of returned transfers is at most `n − 1`
(natural subtraction) where `n` counts the balance-map entries — users plus
unknown identifiers appearing in expenses — whose net balance magnitude
exceeds epsilon, i.e. the debtors plus the creditors. -/
theorem c2_transfer_bound_amended (users : List User) (expenses : List Expense) :
    (settlements users expenses).length ≤
      (debtorsOf (accrueBalances users expenses)).length +
        (creditorsOf (accrueBalances users expenses)).length - 1 := by
  by_cases h : users.length < 2 ∨ expenses.length = 0
  · unfold settlements
    rw [if_pos h]
    simp
  · obtain ⟨r, hr, hs⟩ := settlements_spec_r users expenses
    rw [hs h]
    rcases matchLoop_length_bound users _ _ _ r hr with rfl | hb
    · simp
    · rw [length_sortDesc, length_sortDesc] at hb
      omega

unseal Rat.add Rat.sub Rat.mul Rat.inv Nat.gcd in
/-- C3 (counterexample): an expense whose participant set is empty credits
its payer the full amount and debits nobody, so after accrual the sum of
positive balances is 10 while the sum of negative magnitudes is 0 — the
zero-sum claim fails on this input (and not merely within epsilon). -/
theorem c3_counterexample :
    sumPos (accrueBalances [⟨"a","A"⟩, ⟨"b","B"⟩] [⟨10, "a", []⟩]) = 10 ∧
    sumNeg (accrueBalances [⟨"a","A"⟩, ⟨"b","B"⟩] [⟨10, "a", []⟩]) = 0 ∧
    ¬(|sumPos (accrueBalances [⟨"a","A"⟩, ⟨"b","B"⟩] [⟨10, "a", []⟩]) -
        sumNeg (accrueBalances [⟨"a","A"⟩, ⟨"b","B"⟩] [⟨10, "a", []⟩])| ≤ 1/100) := by
  decide

/-- C3 (amended): for every input whose expenses all have a non-empty
participant set, the sum of all positive accrued balances equals the sum of
the magnitudes of all negative accrued balances — exactly, in exact rational
arithmetic. -/
theorem c3_zero_sum_amended (users : List User) (expenses : List Expense)
    (h : ∀ e ∈ expenses, e.participantIds ≠ []) :
    sumPos (accrueBalances users expenses) = sumNeg (accrueBalances users expenses) := by
  have h0 := sumBal_accrueBalances users expenses h
  have h1 := sumPos_sub_sumNeg (accrueBalances users expenses)
  linarith

/-- C3 (witness): the amended theorem applied to a concrete valid input. -/
theorem c3_zero_sum_amended_witness :
    sumPos (accrueBalances [⟨"a","A"⟩, ⟨"b","B"⟩] [⟨10, "a", ["a","b"]⟩])
      = sumNeg (accrueBalances [⟨"a","A"⟩, ⟨"b","B"⟩] [⟨10, "a", ["a","b"]⟩]) :=
  c3_zero_sum_amended _ _ (by decide)

unseal Rat.add Rat.sub Rat.mul Rat.inv Nat.gcd in
/-- C4 (counterexample): splitting 100 three ways emits transfers of exactly
100/3, which is not equal to its 2-decimal rounding — indeed `100/3 * 100`
is not an integer, so the emitted amount is not a 2-decimal quantity under
any rounding convention. -/
theorem c4_counterexample :
    settlements [⟨"a","A"⟩, ⟨"b","B"⟩, ⟨"c","C"⟩] [⟨100, "a", ["a","b","c"]⟩]
      = [⟨"B","A",100/3⟩, ⟨"C","A",100/3⟩] ∧
    round2 (100/3) ≠ (100/3 : ℚ) ∧
    ((100/3 : ℚ) * 100).den ≠ 1 := by
  refine ⟨by decide, ?_, by decide⟩
  unfold round2
  norm_num

/-- C4 (amended): emitted amounts are the exact, unrounded settled amounts
(`min` of the two remaining balances at emission time); the engine only
guarantees that every emitted amount exceeds epsilon = 0.01, not that it is
rounded to 2 decimal places. -/
theorem c4_amounts_unrounded_amended (users : List User) (expenses : List Expense) :
    ∀ t ∈ settlements users expenses, 1/100 < t.amount := by
  intro t ht
  by_cases h : users.length < 2 ∨ expenses.length = 0
  · unfold settlements at ht
    rw [if_pos h] at ht
    simp at ht
  · obtain ⟨r, hr, hs⟩ := settlements_spec_r users expenses
    rw [hs h] at ht
    exact matchLoop_amount users _ _ _ r hr t ht

unseal Rat.add Rat.sub Rat.mul Rat.inv Nat.gcd in
/-- C4 (witness): the amended theorem applied at a concrete input whose
single transfer has amount 50. -/
theorem c4_amounts_unrounded_amended_witness : (1:ℚ)/100 < (50:ℚ) :=
  c4_amounts_unrounded_amended [⟨"a","A"⟩, ⟨"b","B"⟩] [⟨100, "a", ["a","b"]⟩]
    ⟨"B","A",50⟩ (by decide)

unseal Rat.add Rat.sub Rat.mul Rat.inv Nat.gcd String.ltb in
/-- C5 (counterexample): three debtors tied at magnitude 10, stored in users
order b, a, c, are emitted in exactly that order (names B, A, C) — the
code's sort has no secondary key, so the order is the stable input order,
which here agrees with neither the identifier-ascending nor the
identifier-descending tie-break claimed by the spec. -/
theorem c5_counterexample :
    (settlements [⟨"b","B"⟩, ⟨"a","A"⟩, ⟨"c","C"⟩, ⟨"p","P"⟩]
        [⟨30, "p", ["b","a","c"]⟩]).map (fun t => t.«from») = ["B", "A", "C"] ∧
    sortDesc (debtorsOf (accrueBalances [⟨"b","B"⟩, ⟨"a","A"⟩, ⟨"c","C"⟩, ⟨"p","P"⟩]
        [⟨30, "p", ["b","a","c"]⟩]))
      ≠ sortDescIdAsc (debtorsOf (accrueBalances [⟨"b","B"⟩, ⟨"a","A"⟩, ⟨"c","C"⟩, ⟨"p","P"⟩]
        [⟨30, "p", ["b","a","c"]⟩])) ∧
    sortDesc (debtorsOf (accrueBalances [⟨"b","B"⟩, ⟨"a","A"⟩, ⟨"c","C"⟩, ⟨"p","P"⟩]
        [⟨30, "p", ["b","a","c"]⟩]))
      ≠ sortDescIdDesc (debtorsOf (accrueBalances [⟨"b","B"⟩, ⟨"a","A"⟩, ⟨"c","C"⟩, ⟨"p","P"⟩]
        [⟨30, "p", ["b","a","c"]⟩])) := by
  decide

/-- C5 (amended): the debtor and creditor lists the engine works through are
each sorted descending by owed magnitude, but ties are left in the stable
balance-map insertion order (users order, then first touch of unknown
identifiers) — no identifier-based secondary key is applied. -/
theorem c5_sorted_descending_amended (users : List User) (expenses : List Expense) :
    (sortDesc (debtorsOf (accrueBalances users expenses))).Pairwise
        (fun a b => b.balance ≤ a.balance) ∧
    (sortDesc (creditorsOf (accrueBalances users expenses))).Pairwise
        (fun a b => b.balance ≤ a.balance) :=
  ⟨pairwise_sortDesc _, pairwise_sortDesc _⟩

unseal Rat.add Rat.sub Rat.mul Rat.inv Nat.gcd in
/-- C6 (counterexample): two distinct users who share the display name "Sam"
produce the self-transfer "Sam" pays "Sam", because the output records carry
display names rather than identifiers. -/
theorem c6_counterexample :
    settlements [⟨"u1","Sam"⟩, ⟨"u2","Sam"⟩] [⟨10, "u1", ["u2"]⟩]
      = [⟨"Sam", "Sam", 10⟩] ∧
    ¬(∀ t ∈ settlements [⟨"u1","Sam"⟩, ⟨"u2","Sam"⟩] [⟨10, "u1", ["u2"]⟩],
        t.«from» ≠ t.«to») := by
  decide

/-- C6 (amended): provided display names determine identifiers (no two users
share a name), no user has the empty display name, and every expense
identifier occurs in the users snapshot, no emitted transfer has
`from = to`: each transfer pairs a debtor entry and a creditor entry, those
balance-map entries have distinct identifiers, and distinct identifiers then
resolve to distinct names. -/
theorem c6_no_self_transfer_amended (users : List User) (expenses : List Expense)
    (hnames : ∀ u1 ∈ users, ∀ u2 ∈ users, u1.name = u2.name → u1.id = u2.id)
    (hne : ∀ u ∈ users, u.name ≠ "")
    (hrefs : ∀ e ∈ expenses, e.paidById ∈ users.map User.id ∧
      ∀ pid ∈ e.participantIds, pid ∈ users.map User.id) :
    ∀ t ∈ settlements users expenses, t.«from» ≠ t.«to» := by
  intro t ht heq
  by_cases h : users.length < 2 ∨ expenses.length = 0
  · unfold settlements at ht
    rw [if_pos h] at ht
    simp at ht
  · obtain ⟨r, hr, hs⟩ := settlements_spec_r users expenses
    rw [hs h] at ht
    have hnm := matchLoop_names users _ _ _ r hr t ht
    rcases List.mem_map.mp hnm.1 with ⟨p, hp, hfrom⟩
    rcases List.mem_map.mp hnm.2 with ⟨q, hq, hto⟩
    rw [mem_sortDesc] at hp hq
    obtain ⟨hpmem, hplt⟩ := mem_debtorsOf hp
    obtain ⟨hqmem, hqlt⟩ := mem_creditorsOf hq
    have hpid : p.id ∈ users.map User.id := by
      have hk := List.mem_map_of_mem Prod.fst hpmem
      rcases mem_keys_accrueBalances users expenses p.id hk with h' | ⟨e, he, h'⟩
      · exact h'
      · rcases h' with hpay | h''
        · rw [hpay]; exact (hrefs e he).1
        · exact (hrefs e he).2 _ h''
    have hqid : q.id ∈ users.map User.id := by
      have hk := List.mem_map_of_mem Prod.fst hqmem
      rcases mem_keys_accrueBalances users expenses q.id hk with h' | ⟨e, he, h'⟩
      · exact h'
      · rcases h' with hpay | h''
        · rw [hpay]; exact (hrefs e he).1
        · exact (hrefs e he).2 _ h''
    have hpq : p.id ≠ q.id := by
      intro hid
      have hv := value_eq_of_mem_nodup (keys_nodup_accrueBalances users expenses)
        (hid ▸ hpmem) hqmem
      linarith [hplt, hqlt, hv]
    rcases nameOf_mem users p.id hpid with ⟨u1, hu1, hu1id, hu1nm⟩
    rcases nameOf_mem users q.id hqid with ⟨u2, hu2, hu2id, hu2nm⟩
    rw [if_neg (hne u1 hu1)] at hu1nm
    rw [if_neg (hne u2 hu2)] at hu2nm
    have hname12 : u1.name = u2.name := by
      rw [← hu1nm, ← hu2nm, hfrom, hto, heq]
    have hid12 := hnames u1 hu1 u2 hu2 hname12
    exact hpq ((hu1id.symm.trans hid12).trans hu2id)

unseal Rat.add Rat.sub Rat.mul Rat.inv Nat.gcd in
/-- C6 (witness): the amended theorem at a concrete input with distinct
names, whose single transfer is "A" pays "B". -/
theorem c6_no_self_transfer_amended_witness : ("A" : String) ≠ "B" :=
  c6_no_self_transfer_amended [⟨"a","A"⟩, ⟨"b","B"⟩] [⟨10, "b", ["a"]⟩]
    (by decide) (by decide) (by decide) ⟨"A","B",10⟩ (by decide)

unseal Rat.add Rat.sub Rat.mul Rat.inv Nat.gcd in
/-- C7 (counterexample): on an input violating all three validity conditions
(unknown payer "zz", empty participant set, negative amount), the engine
does not reject: it returns the nonempty settlement list computed from the
balances accrued from the input as given. -/
theorem c7_counterexample :
    specValidInput [⟨"a","A"⟩, ⟨"b","B"⟩] [⟨10, "zz", []⟩, ⟨-6, "a", ["b"]⟩] = false ∧
    settlements [⟨"a","A"⟩, ⟨"b","B"⟩] [⟨10, "zz", []⟩, ⟨-6, "a", ["b"]⟩]
      = [⟨"A", "Unknown", 6⟩] := by
  decide

/-- C7 (amended): the engine performs no input validation and never raises:
every input flows through the same accrual and matching arithmetic.  In
particular an expense with an empty participant set is not rejected — it
simply credits the payer its full amount and debits nobody. -/
theorem c7_no_validation_amended (bs : Balances) (e : Expense)
    (h : e.participantIds = []) :
    accrueExpense bs e = setBal bs e.paidById (getBal bs e.paidById + e.amount) := by
  simp [accrueExpense, h]

unseal Rat.add Rat.sub Rat.mul Rat.inv Nat.gcd in
/-- C7 (witness): the amended theorem applied at a concrete
empty-participant expense. -/
theorem c7_no_validation_amended_witness :
    accrueExpense [] ⟨10, "a", []⟩ = [("a", 10)] := by
  rw [c7_no_validation_amended [] ⟨10, "a", []⟩ rfl]
  decide

/-- C8: if after accrual every balance-map entry is within epsilon = 0.01 of
zero in magnitude, the engine returns the empty list (and raises no error):
either an early return fires, or both the debtor and the creditor filters
come out empty and the loop never runs. -/
theorem c8_noop_on_settled (users : List User) (expenses : List Expense)
    (h : ∀ p ∈ accrueBalances users expenses, |p.2| ≤ 1/100) :
    settlements users expenses = [] := by
  by_cases hearly : users.length < 2 ∨ expenses.length = 0
  · unfold settlements
    rw [if_pos hearly]
  · unfold settlements
    rw [if_neg hearly]
    simp only [debtorsOf_eq_nil h, creditorsOf_eq_nil h, sortDesc, List.length_nil,
      matchLoop, Option.getD_some]

unseal Rat.add Rat.sub Rat.mul Rat.inv Nat.gcd in
/-- C8 (witness): an already-settled concrete group (the payer is the sole
participant, so every balance is zero) yields the empty list. -/
theorem c8_noop_on_settled_witness :
    settlements [⟨"a","A"⟩, ⟨"b","B"⟩] [⟨10, "a", ["a"]⟩] = [] :=
  c8_noop_on_settled _ _ (by decide)

/-- C9: the greedy matching loop always terminates within
`debtors.length + creditors.length` iterations: run with exactly that much
fuel — which is what `settlements` supplies — it never runs out, because
each iteration settles the minimum of the two current balances, driving at
least one of them to zero (below the 0.01 threshold), so at least one index
strictly advances. -/
theorem c9_loop_terminates (users : List User) (ds cs : List Party) :
    (matchLoop users (ds.length + cs.length) ds cs).isSome = true :=
  matchLoop_isSome users _ ds cs (le_refl _)

/-- C10: an identifier `uid` absent from the users snapshot is nevertheless
accrued: its balance after accrual is exactly what it would be had `uid`
been a user initialised at 0 (first conjunct — appending such a user changes
nothing); its display name resolves to "Unknown" (second conjunct); and
every emitted transfer's `from`/`to` is the resolved display name of some
debtor / creditor balance-map entry (third conjunct), so a transfer whose
entry is an unknown identifier is emitted with the name "Unknown". -/
theorem c10_unknown_identifier_behavior (users : List User)
    (expenses : List Expense) (uid : String) (nm : String)
    (h : uid ∉ users.map User.id) :
    getBal (accrueBalances users expenses) uid
        = getBal (accrueBalances (users ++ [⟨uid, nm⟩]) expenses) uid ∧
      nameOf users uid = "Unknown" ∧
      ∀ t ∈ settlements users expenses,
        (∃ p ∈ debtorsOf (accrueBalances users expenses),
            t.«from» = nameOf users p.id) ∧
        (∃ q ∈ creditorsOf (accrueBalances users expenses),
            t.«to» = nameOf users q.id) := by
  refine ⟨getBal_accrueBalances_users_irrelevant expenses users _ uid,
    nameOf_not_mem users uid h, ?_⟩
  intro t ht
  by_cases hearly : users.length < 2 ∨ expenses.length = 0
  · unfold settlements at ht
    rw [if_pos hearly] at ht
    simp at ht
  · obtain ⟨r, hr, hs⟩ := settlements_spec_r users expenses
    rw [hs hearly] at ht
    have hnm := matchLoop_names users _ _ _ r hr t ht
    rcases List.mem_map.mp hnm.1 with ⟨p, hp, hfrom⟩
    rcases List.mem_map.mp hnm.2 with ⟨q, hq, hto⟩
    rw [mem_sortDesc] at hp hq
    exact ⟨⟨p, hp, hfrom.symm⟩, ⟨q, hq, hto.symm⟩⟩

/-- C10 (witness): the theorem at a concrete unknown identifier "zz". -/
theorem c10_unknown_identifier_behavior_witness :
    nameOf [⟨"a","A"⟩, ⟨"b","B"⟩] "zz" = "Unknown" :=
  (c10_unknown_identifier_behavior [⟨"a","A"⟩, ⟨"b","B"⟩] [] "zz" "Zed"
    (by decide)).2.1
